import Mathlib

/-!
Verification development for the document-to-knowledge pipeline of this
repository: a shallow embedding in Lean 4 of the retrieval layer
(`backend/app/rag.py`), the PDF extraction/chunking layer
(`backend/app/pdf_ingest.py`) and the batch-ingestion background job
(`backend/app/routes/documents.py`), together with theorems settling the
frozen behavioural claims about those components.

Modelling conventions:
* Python strings are modelled as `List Char` (or Lean `String`, whose
  underlying data is a `List Char`).
* Python floats are modelled as exact rationals `ℚ` for stored data and as
  real numbers `ℝ` where the code takes square roots (`np.linalg.norm`);
  float rounding error is abstracted away, which is faithful to every claim
  treated here (all of them are about control flow, set membership, counts
  or exact small-denominator values, not about ulp-level rounding).
* The SQLAlchemy tables are modelled as in-memory lists of rows; a query
  with joins/filters is the corresponding list comprehension.
* External effects (the OpenAI embedding client, the PDF libraries, the
  per-document ingest sub-pipeline of the batch job) are modelled as
  function parameters, so theorems quantify over every possible behaviour
  of the external service.
-/

/-! ## Generic string helpers (Python `str.strip` etc. on `List Char`) -/

/-- Whitespace test used by Python's `str.strip()` (modelled by Lean's
whitespace class; all inputs in this development are ASCII). -/
def isPySpace (c : Char) : Bool :=
  c = ' ' ∨ c = '\t' ∨ c = '\n' ∨ c = '\r' ∨ c = '\x0b' ∨ c = '\x0c'

/-- Python `str.strip()` on a character list: drop whitespace from both ends. -/
def pyStrip (l : List Char) : List Char :=
  ((l.dropWhile isPySpace).reverse.dropWhile isPySpace).reverse

/-- Python `str.strip()` on a Lean `String`. -/
def pyStripStr (s : String) : String :=
  (pyStrip s.data).asString

theorem pyStrip_length_le (l : List Char) : (pyStrip l).length ≤ l.length := by
  unfold pyStrip
  have h1 : (l.dropWhile isPySpace).length ≤ l.length :=
    (List.dropWhile_sublist isPySpace).length_le
  have h2 : ((l.dropWhile isPySpace).reverse.dropWhile isPySpace).length ≤
      (l.dropWhile isPySpace).reverse.length :=
    (List.dropWhile_sublist isPySpace).length_le
  simpa using le_trans (by simpa using h2) h1

/-! ## Data model of the persistent store (`backend/app/models.py`)

Only the columns the retrieval layer reads are modelled. `embedding_json`
holds the parsed JSON vector: `none` models a `NULL`/empty/unparseable
column (the code skips such rows), `some v` a successfully parsed vector. -/

structure PropertyRow where
  id : ℕ
  user_id : ℕ
  deriving DecidableEq, Repr

structure DocumentRow where
  id : ℕ
  property_id : ℕ
  deriving DecidableEq, Repr

structure ChunkRow where
  document_id : ℕ
  chunk_id : String
  text : String
  embedding_json : Option (List ℚ)
  deriving DecidableEq, Repr

structure DB where
  properties : List PropertyRow
  documents : List DocumentRow
  chunks : List ChunkRow
  deriving DecidableEq, Repr

/-! ## `rag.upsert_chunks` (`backend/app/rag.py`, lines 36-55) -/

structure UpsertRecord where
  document_id : ℕ
  chunk_id : String
  text : String
  deriving DecidableEq, Repr

/-- Model of `rag.upsert_chunks(db, chunks)`.  The OpenAI embedding call
`embed_texts` is passed in as the function `embed`.  Mirrors the source:
an empty record list returns immediately; otherwise all texts are embedded,
every existing chunk row of `chunks[0]["document_id"]` is deleted, and one
new row per `(record, vector)` pair of `zip(chunks, vecs)` is inserted. -/
def upsert_chunks (embed : List String → List (List ℚ)) (db : DB)
    (chunks : List UpsertRecord) : DB :=
  match chunks with
  | [] => db
  | first :: _ =>
    let texts := chunks.map UpsertRecord.text
    let vecs := embed texts
    let doc_id := first.document_id
    let kept := db.chunks.filter (fun c => ¬ c.document_id = doc_id)
    let inserted := (chunks.zip vecs).map (fun cv =>
      ChunkRow.mk cv.1.document_id cv.1.chunk_id cv.1.text (some cv.2))
    { db with chunks := kept ++ inserted }

/-- C2: re-indexing a document replaces its chunk rows: after `upsert_chunks`
with a non-empty record list for document `d` (all records naming `d`, and
the embedding service returning one vector per input), the chunk rows whose
`document_id` is `d` are exactly the freshly inserted rows — `M` rows for
`M` records, each carrying a new record's key and text, never a mix with
the previously stored rows; rows of other documents are untouched. -/
theorem upsert_chunks_replaces (embed : List String → List (List ℚ)) (db : DB)
    (first : UpsertRecord) (rest : List UpsertRecord)
    (hdoc : ∀ c ∈ first :: rest, c.document_id = first.document_id)
    (hlen : (embed ((first :: rest).map UpsertRecord.text)).length =
      (first :: rest).length) :
    ((upsert_chunks embed db (first :: rest)).chunks.filter
        (fun c => c.document_id = first.document_id)).length =
      (first :: rest).length ∧
    (∀ r ∈ (upsert_chunks embed db (first :: rest)).chunks,
      r.document_id = first.document_id →
        (r.chunk_id, r.text) ∈ (first :: rest).map (fun c => (c.chunk_id, c.text))) ∧
    (∀ r ∈ db.chunks, ¬ r.document_id = first.document_id →
        r ∈ (upsert_chunks embed db (first :: rest)).chunks) := by
  have hzip : ((first :: rest).zip
      (embed ((first :: rest).map UpsertRecord.text))).length =
      (first :: rest).length := by
    rw [List.length_zip, hlen, min_self]
  have hins : ∀ r ∈ ((first :: rest).zip
      (embed ((first :: rest).map UpsertRecord.text))).map (fun cv =>
        ChunkRow.mk cv.1.document_id cv.1.chunk_id cv.1.text (some cv.2)),
      r.document_id = first.document_id ∧
        (r.chunk_id, r.text) ∈ (first :: rest).map (fun c => (c.chunk_id, c.text)) := by
    intro r hr
    rcases List.mem_map.mp hr with ⟨cv, hcv, rfl⟩
    have hc : cv.1 ∈ first :: rest := (List.of_mem_zip hcv).1
    exact ⟨hdoc cv.1 hc, List.mem_map.mpr ⟨cv.1, hc, rfl⟩⟩
  refine ⟨?_, ?_, ?_⟩
  · show (((db.chunks.filter (fun c => ¬ c.document_id = first.document_id)) ++ _).filter _).length = _
    rw [List.filter_append]
    have h1 : (db.chunks.filter (fun c => ¬ c.document_id = first.document_id)).filter
        (fun c => c.document_id = first.document_id) = [] := by
      rw [List.filter_filter]
      apply List.filter_eq_nil_iff.mpr
      intro a _
      by_cases h : a.document_id = first.document_id <;> simp [h]
    have h2 : (((first :: rest).zip
        (embed ((first :: rest).map UpsertRecord.text))).map (fun cv =>
          ChunkRow.mk cv.1.document_id cv.1.chunk_id cv.1.text (some cv.2))).filter
        (fun c => c.document_id = first.document_id) =
        ((first :: rest).zip
        (embed ((first :: rest).map UpsertRecord.text))).map (fun cv =>
          ChunkRow.mk cv.1.document_id cv.1.chunk_id cv.1.text (some cv.2)) := by
      apply List.filter_eq_self.mpr
      intro r hr
      exact decide_eq_true ((hins r hr).1)
    rw [h1, h2, List.nil_append, List.length_map, hzip]
  · intro r hr hdid
    rcases List.mem_append.mp hr with h | h
    · exact absurd hdid (of_decide_eq_true (List.mem_filter.mp h).2)
    · exact (hins r h).2
  · intro r hr hne
    exact List.mem_append.mpr (Or.inl (List.mem_filter.mpr ⟨hr, decide_eq_true hne⟩))

/-- Witness for C2: a concrete store with two stale rows for document 1 and
one row for document 2, re-indexed with three records for document 1. -/
theorem upsert_chunks_replaces_witness :
    (((upsert_chunks (fun ts => ts.map (fun _ => [(1 : ℚ)]))
        (DB.mk [PropertyRow.mk 10 1] [DocumentRow.mk 1 10]
          [ChunkRow.mk 1 "1-old0" "o0" (some [2]),
           ChunkRow.mk 1 "1-old1" "o1" (some [3]),
           ChunkRow.mk 2 "2-0" "keep" (some [4])])
        [UpsertRecord.mk 1 "1-a" "ta", UpsertRecord.mk 1 "1-b" "tb",
         UpsertRecord.mk 1 "1-c" "tc"]).chunks.filter
          (fun c => c.document_id = (1 : ℕ))).length = 3) ∧
    (∀ r ∈ (upsert_chunks (fun ts => ts.map (fun _ => [(1 : ℚ)]))
        (DB.mk [PropertyRow.mk 10 1] [DocumentRow.mk 1 10]
          [ChunkRow.mk 1 "1-old0" "o0" (some [2]),
           ChunkRow.mk 1 "1-old1" "o1" (some [3]),
           ChunkRow.mk 2 "2-0" "keep" (some [4])])
        [UpsertRecord.mk 1 "1-a" "ta", UpsertRecord.mk 1 "1-b" "tb",
         UpsertRecord.mk 1 "1-c" "tc"]).chunks,
      r.document_id = (1 : ℕ) →
        (r.chunk_id, r.text) ∈ [((("1-a" : String), ("ta" : String))),
          ("1-b", "tb"), ("1-c", "tc")]) := by
  have h := upsert_chunks_replaces (fun ts => ts.map (fun _ => [(1 : ℚ)]))
    (DB.mk [PropertyRow.mk 10 1] [DocumentRow.mk 1 10]
      [ChunkRow.mk 1 "1-old0" "o0" (some [2]),
       ChunkRow.mk 1 "1-old1" "o1" (some [3]),
       ChunkRow.mk 2 "2-0" "keep" (some [4])])
    (UpsertRecord.mk 1 "1-a" "ta")
    [UpsertRecord.mk 1 "1-b" "tb", UpsertRecord.mk 1 "1-c" "tc"]
    (by decide) (by decide)
  exact ⟨h.1, h.2.1⟩

/-- C10: `upsert_chunks` with an empty record list is a complete no-op —
for every embedding service and every store, the store is returned
unchanged (no rows deleted, none inserted, and the result does not depend
on the embedding function, so no embedding is consulted). -/
theorem upsert_chunks_empty_noop (embed : List String → List (List ℚ))
    (db : DB) : upsert_chunks embed db [] = db := rfl

/-! ## `rag._cosine_similarity` and `rag.search` (`backend/app/rag.py`, lines 58-110) -/

/-- Sum of squares of a vector; `np.linalg.norm v = Real.sqrt (sumSq v)`. -/
def sumSq (v : List ℚ) : ℚ := (v.map (fun x => x * x)).sum

/-- Dot product (`embeddings @ query_vec`, row-wise). -/
def dotQ (a b : List ℚ) : ℚ := (List.zipWith (fun x y => x * y) a b).sum

theorem sumSq_nonneg (v : List ℚ) : 0 ≤ sumSq v := by
  induction v with
  | nil => simp [sumSq]
  | cons x t ih =>
    simp only [sumSq, List.map_cons, List.sum_cons]
    have hx : 0 ≤ x * x := mul_self_nonneg x
    have ht : 0 ≤ sumSq t := ih
    simp only [sumSq] at ht
    linarith

theorem sumSq_eq_zero_entries (v : List ℚ) (h : sumSq v = 0) : ∀ x ∈ v, x = 0 := by
  induction v with
  | nil => simp
  | cons x t ih =>
    simp only [sumSq, List.map_cons, List.sum_cons] at h
    have hx : 0 ≤ x * x := mul_self_nonneg x
    have ht : 0 ≤ sumSq t := sumSq_nonneg t
    simp only [sumSq] at ht
    have hx0 : x * x = 0 := by linarith
    have ht0 : sumSq t = 0 := by simp only [sumSq]; linarith
    intro y hy
    rcases List.mem_cons.mp hy with rfl | hy
    · exact mul_self_eq_zero.mp hx0
    · exact ih ht0 y hy

theorem dotQ_eq_zero_of_left_zero (a b : List ℚ) (h : ∀ x ∈ a, x = 0) :
    dotQ a b = 0 := by
  induction a generalizing b with
  | nil => simp [dotQ]
  | cons x t ih =>
    cases b with
    | nil => simp [dotQ]
    | cons y u =>
      have hx : x = 0 := h x (List.mem_cons_self x t)
      have ht : ∀ z ∈ t, z = 0 := fun z hz => h z (List.mem_cons_of_mem x hz)
      simp only [dotQ, List.zipWith_cons_cons, List.sum_cons, hx, zero_mul, zero_add]
      exact ih u ht

/-- Model of `rag._cosine_similarity(query_vec, embeddings)`.

In the source, `q_norm = np.linalg.norm(query_vec)` and
`emb_norms = np.linalg.norm(embeddings, axis=1)` are square roots of sums
of squares, the guard is `q_norm == 0`, and the per-candidate denominator
`emb_norms * q_norm` is replaced by `1e-12` where it is `0`.  Since
`Real.sqrt s = 0 ↔ s = 0` for the nonnegative `s = sumSq v`, and the
denominator is `0` iff the product of the squared norms is `0`, the two
guards below are written on the (exactly representable) rational sums of
squares; the score values themselves keep the real square roots. -/
noncomputable def cosine_similarity (query_vec : List ℚ)
    (embeddings : List (List ℚ)) : List ℝ :=
  if sumSq query_vec = 0 then List.replicate embeddings.length 0
  else
    embeddings.map (fun e =>
      ((dotQ e query_vec : ℚ) : ℝ) /
        (if sumSq e * sumSq query_vec = 0 then 1 / 10 ^ 12
         else Real.sqrt ((sumSq e : ℚ) : ℝ) * Real.sqrt ((sumSq query_vec : ℚ) : ℝ)))

/-- C9: cosine scoring is division-safe and total.  A zero-norm query yields
the all-zero score vector without any division; otherwise one score per
candidate is produced, and a candidate whose zero norm would make the
denominator zero is scored with the denominator floored to `1e-12` —
its score is the (zero) dot product over `1e-12`, hence `0`, never a
division by zero. -/
theorem cosine_similarity_division_safe (q q0 : List ℚ) (embs : List (List ℚ))
    (i : ℕ) (hq0 : sumSq q0 = 0) (hi : i < embs.length)
    (he : sumSq (embs.getD i []) = 0) :
    cosine_similarity q0 embs = List.replicate embs.length 0 ∧
    (cosine_similarity q embs).length = embs.length ∧
    (cosine_similarity q embs).getD i 0 =
      ((dotQ (embs.getD i []) q : ℚ) : ℝ) / ((1 : ℝ) / 10 ^ 12) ∧
    (cosine_similarity q embs).getD i 0 = 0 := by
  have hzero : ∀ x ∈ embs.getD i [], x = 0 := sumSq_eq_zero_entries _ he
  have hdot : dotQ (embs.getD i []) q = 0 := dotQ_eq_zero_of_left_zero _ _ hzero
  refine ⟨?_, ?_, ?_, ?_⟩
  · simp [cosine_similarity, hq0]
  · by_cases h : sumSq q = 0 <;> simp [cosine_similarity, h]
  · by_cases h : sumSq q = 0
    · rw [hdot]
      simp [cosine_similarity, h, List.getD_eq_getElem _ _ (by simpa using hi)]
    · have hlen : i < (embs.map (fun e =>
          ((dotQ e q : ℚ) : ℝ) /
            (if sumSq e * sumSq q = 0 then 1 / 10 ^ 12
             else Real.sqrt ((sumSq e : ℚ) : ℝ) * Real.sqrt ((sumSq q : ℚ) : ℝ)))).length := by
        simpa using hi
      simp only [cosine_similarity, if_neg h]
      rw [List.getD_eq_getElem _ _ hlen, List.getElem_map,
        List.getD_eq_getElem _ _ hi] at *
      rw [he]
      simp
  · by_cases h : sumSq q = 0
    · simp [cosine_similarity, h, List.getD_eq_getElem _ _ (by simpa using hi)]
    · have hlen : i < (embs.map (fun e =>
          ((dotQ e q : ℚ) : ℝ) /
            (if sumSq e * sumSq q = 0 then 1 / 10 ^ 12
             else Real.sqrt ((sumSq e : ℚ) : ℝ) * Real.sqrt ((sumSq q : ℚ) : ℝ)))).length := by
        simpa using hi
      simp only [cosine_similarity, if_neg h]
      rw [List.getD_eq_getElem _ _ hlen, List.getElem_map,
        List.getD_eq_getElem _ _ hi] at *
      rw [he, hdot]
      simp

/-- Witness for C9 at a concrete zero-norm query and zero-norm candidate. -/
theorem cosine_similarity_division_safe_witness :
    cosine_similarity [0] [[(0 : ℚ)]] = List.replicate 1 0 ∧
    (cosine_similarity [1] [[(0 : ℚ)]]).length = 1 ∧
    (cosine_similarity [1] [[(0 : ℚ)]]).getD 0 0 =
      ((dotQ ([[(0 : ℚ)]].getD 0 []) [1] : ℚ) : ℝ) / ((1 : ℝ) / 10 ^ 12) ∧
    (cosine_similarity [1] [[(0 : ℚ)]]).getD 0 0 = 0 := by
  have h := cosine_similarity_division_safe [1] [0] [[(0 : ℚ)]] 0
    (by simp [sumSq]) (by decide) (by simp [sumSq])
  exact h

/-- Stable insertion of index `i` into an ascending (by score) index list;
building block of the `np.argsort(scores)` model. -/
noncomputable def insertAscBy (s : List ℝ) (i : ℕ) : List ℕ → List ℕ
  | [] => [i]
  | j :: rest =>
    if s.getD j 0 ≤ s.getD i 0 then j :: insertAscBy s i rest else i :: j :: rest

/-- Model of `np.argsort(scores)`: the indices `0, …, n-1` sorted by
ascending score (ties resolved stably; NumPy's default sort does not
promise a tie order, and no claim here depends on one). -/
noncomputable def argsortAsc (s : List ℝ) : List ℕ :=
  (List.range s.length).foldl (fun acc i => insertAscBy s i acc) []

theorem mem_insertAscBy (s : List ℝ) (i x : ℕ) (l : List ℕ)
    (h : x ∈ insertAscBy s i l) : x = i ∨ x ∈ l := by
  induction l with
  | nil => simpa [insertAscBy] using h
  | cons j rest ih =>
    by_cases hc : s.getD j 0 ≤ s.getD i 0
    · simp only [insertAscBy, if_pos hc, List.mem_cons] at h
      rcases h with rfl | h
      · exact Or.inr (List.mem_cons_self _ _)
      · rcases ih h with h | h
        · exact Or.inl h
        · exact Or.inr (List.mem_cons_of_mem _ h)
    · simp only [insertAscBy, if_neg hc, List.mem_cons] at h
      rcases h with rfl | h
      · exact Or.inl rfl
      · exact Or.inr (by simpa using h)

theorem mem_argsortAsc (s : List ℝ) (x : ℕ) (h : x ∈ argsortAsc s) :
    x < s.length := by
  have key : ∀ (l : List ℕ) (acc : List ℕ),
      x ∈ l.foldl (fun a i => insertAscBy s i a) acc → x ∈ acc ∨ x ∈ l := by
    intro l
    induction l with
    | nil => intro acc h; exact Or.inl h
    | cons j rest ih =>
      intro acc h
      rcases ih (insertAscBy s j acc) h with h | h
      · rcases mem_insertAscBy s j x acc h with rfl | h
        · exact Or.inr (List.mem_cons_self _ _)
        · exact Or.inl h
      · exact Or.inr (List.mem_cons_of_mem _ h)
  rcases key (List.range s.length) [] h with h | h
  · simp at h
  · exact List.mem_range.mp h

/-- One row of the joined retrieval query
`db.query(Chunk, Document.property_id).join(Document).join(Property)
   .filter(Property.user_id == user_id)`:
a chunk together with its document's `property_id`, kept only when a
property row with that id belongs to `user_id`. -/
def tenantRows (db : DB) (user_id : ℕ) : List (ChunkRow × ℕ) :=
  db.chunks.flatMap (fun c =>
    db.documents.flatMap (fun d =>
      if d.id = c.document_id then
        db.properties.filterMap (fun p =>
          if p.id = d.property_id ∧ p.user_id = user_id then
            some (c, d.property_id)
          else none)
      else []))

/-- The optional `.filter(Document.property_id == property_id)` scope. -/
def scopedRows (db : DB) (user_id : ℕ) (property_id : Option ℕ) :
    List (ChunkRow × ℕ) :=
  match property_id with
  | none => tenantRows db user_id
  | some pid => (tenantRows db user_id).filter (fun r => r.2 = pid)

/-- A returned retrieval hit (one element of `search`'s result list). -/
structure Hit where
  document_id : ℕ
  property_id : ℕ
  chunk_id : String
  text : String
  score : ℝ

/-- Placeholder row used with `List.getD`; every index the code produces is
in bounds, as the membership lemmas below prove. -/
def dummyCand : (ChunkRow × ℕ) × List ℚ := ((ChunkRow.mk 0 "" "" none, 0), [])

/-- The `candidates`/`vectors` loop of `rag.search`: rows of the scoped
join whose `embedding_json` parses, paired with their parsed vector
(`none` models `NULL`/empty and parse failures, both skipped by the
source's `continue`; the two parallel Python lists are kept in lockstep,
modelled here as one list of pairs). -/
def validCandidates (db : DB) (user_id : ℕ) (property_id : Option ℕ) :
    List ((ChunkRow × ℕ) × List ℚ) :=
  (scopedRows db user_id property_id).filterMap (fun r =>
    r.1.embedding_json.map (fun v => (r, v)))

/-- The score vector of `rag.search`: cosine similarity of the query vector
against the embedding matrix of the valid candidates. -/
noncomputable def searchScores (query_vec : List ℚ) (db : DB) (user_id : ℕ)
    (property_id : Option ℕ) : List ℝ :=
  cosine_similarity query_vec ((validCandidates db user_id property_id).map
    (fun x => x.2))

/-- Model of `rag.search(query, db, user_id, property_id, k)`.  The OpenAI
embedding call is the parameter `embed`.  Mirrors the source: embed the
query (empty embedding ⇒ `[]`); run the tenant-scoped join (`[]` ⇒ `[]`);
keep rows whose `embedding_json` parses; score all kept candidates; return
the `max 1 k` best indices (descending score) mapped back to their
candidate rows. -/
noncomputable def search (embed : List String → List (List ℚ)) (query : String)
    (db : DB) (user_id : ℕ) (property_id : Option ℕ) (k : ℕ) : List Hit :=
  match embed [query] with
  | [] => []
  | query_vec :: _ =>
    if query_vec = [] then []
    else
      if scopedRows db user_id property_id = [] then []
      else
        if validCandidates db user_id property_id = [] then []
        else
          ((argsortAsc (searchScores query_vec db user_id property_id)).reverse.take
            (max 1 k)).map (fun i =>
            Hit.mk ((validCandidates db user_id property_id).getD i dummyCand).1.1.document_id
              ((validCandidates db user_id property_id).getD i dummyCand).1.2
              ((validCandidates db user_id property_id).getD i dummyCand).1.1.chunk_id
              ((validCandidates db user_id property_id).getD i dummyCand).1.1.text
              ((searchScores query_vec db user_id property_id).getD i 0))

theorem mem_tenantRows (db : DB) (user_id : ℕ) (r : ChunkRow × ℕ)
    (h : r ∈ tenantRows db user_id) :
    ∃ d ∈ db.documents, ∃ p ∈ db.properties,
      d.id = r.1.document_id ∧ d.property_id = r.2 ∧ p.id = r.2 ∧
      p.user_id = user_id := by
  rcases List.mem_flatMap.mp h with ⟨c, _, hrest⟩
  rcases List.mem_flatMap.mp hrest with ⟨d, hd, hr⟩
  by_cases hid : d.id = c.document_id
  · rw [if_pos hid] at hr
    rcases List.mem_filterMap.mp hr with ⟨p, hp, hsome⟩
    by_cases hcond : p.id = d.property_id ∧ p.user_id = user_id
    · rw [if_pos hcond] at hsome
      cases hsome
      exact ⟨d, hd, p, hp, hid, rfl, hcond.1, hcond.2⟩
    · rw [if_neg hcond] at hsome
      cases hsome
  · rw [if_neg hid] at hr
    cases hr

theorem mem_scopedRows (db : DB) (user_id : ℕ) (property_id : Option ℕ)
    (r : ChunkRow × ℕ) (h : r ∈ scopedRows db user_id property_id) :
    r ∈ tenantRows db user_id := by
  cases property_id with
  | none => exact h
  | some pid => exact (List.mem_filter.mp h).1

theorem cosine_similarity_length (q : List ℚ) (embs : List (List ℚ)) :
    (cosine_similarity q embs).length = embs.length := by
  by_cases h : sumSq q = 0 <;> simp [cosine_similarity, h]

/-- C1: tenant isolation of retrieval.  For every store (with the primary-key
invariant that property ids are unique), every embedding service behaviour,
every query, scope and `k`: each hit returned by `search` scoped to
`user_id` comes from a document whose property row is owned by `user_id`,
and every property row carrying the hit's `property_id` belongs to
`user_id` — so no chunk owned by a different tenant is ever returned,
whatever the similarity scores, because the tenant filter shapes the
candidate set before any ranking. -/
theorem search_tenant_isolation (embed : List String → List (List ℚ))
    (query : String) (db : DB) (user_id : ℕ) (property_id : Option ℕ) (k : ℕ)
    (hit : Hit) (hnodup : (db.properties.map PropertyRow.id).Nodup)
    (hmem : hit ∈ search embed query db user_id property_id k) :
    (∃ d ∈ db.documents, d.id = hit.document_id ∧
      d.property_id = hit.property_id) ∧
    (∃ p ∈ db.properties, p.id = hit.property_id ∧ p.user_id = user_id) ∧
    (∀ p ∈ db.properties, p.id = hit.property_id → p.user_id = user_id) := by
  unfold search at hmem
  split at hmem
  · simp at hmem
  · split at hmem
    · simp at hmem
    · split at hmem
      · simp at hmem
      · split at hmem
        · simp at hmem
        · rename_i x qv tl heq hqne hrowsne hvalidne
          rcases List.mem_map.mp hmem with ⟨i, hi, rfl⟩
          have hilt : i < (searchScores qv db user_id property_id).length :=
            mem_argsortAsc _ i (List.mem_reverse.mp (List.mem_of_mem_take hi))
          have hvlen : (searchScores qv db user_id property_id).length =
              (validCandidates db user_id property_id).length := by
            simp [searchScores, cosine_similarity_length]
          have hiv : i < (validCandidates db user_id property_id).length := by
            rw [hvlen] at hilt; exact hilt
          have hcmem : (validCandidates db user_id property_id).getD i dummyCand ∈
              validCandidates db user_id property_id := by
            rw [List.getD_eq_getElem _ _ hiv]
            exact List.getElem_mem hiv
          rcases List.mem_filterMap.mp hcmem with ⟨row, hrow, hsome⟩
          rcases Option.map_eq_some'.mp hsome with ⟨v, hv, hpair⟩
          have hrow1 : row = ((validCandidates db user_id property_id).getD i dummyCand).1 := by
            rw [← hpair]
          rw [hrow1] at hrow
          have hten := mem_scopedRows db user_id property_id _ hrow
          rcases mem_tenantRows db user_id _ hten with
            ⟨d, hd, p, hp, hdid, hdprop, hpid, hpuser⟩
          refine ⟨⟨d, hd, hdid, hdprop⟩, ⟨p, hp, hpid, hpuser⟩, ?_⟩
          intro p2 hp2 hp2id
          have : p2 = p :=
            List.inj_on_of_nodup_map hnodup hp2 hp (by rw [hp2id, hpid])
          rw [this]
          exact hpuser

/-- Concrete two-tenant store for the retrieval witnesses: tenant 1 owns
property 10 / document 100 / chunk "c1", tenant 2 owns property 20 /
document 200 / chunk "c2" (whose stored vector is larger, i.e. it would
score at least as high unscoped). -/
def searchDbEx : DB :=
  DB.mk [PropertyRow.mk 10 1, PropertyRow.mk 20 2]
    [DocumentRow.mk 100 10, DocumentRow.mk 200 20]
    [ChunkRow.mk 100 "c1" "t1" (some [1]), ChunkRow.mk 200 "c2" "t2" (some [5])]

/-- Witness for C1: a concrete search by tenant 1 over `searchDbEx` returns
exactly tenant 1's chunk, and every conclusion of the isolation theorem
holds for it. -/
theorem search_tenant_isolation_witness :
    (∃ d ∈ searchDbEx.documents,
      d.id = (Hit.mk 100 10 "c1" "t1" 0).document_id ∧
      d.property_id = (Hit.mk 100 10 "c1" "t1" 0).property_id) ∧
    (∃ p ∈ searchDbEx.properties,
      p.id = (Hit.mk 100 10 "c1" "t1" 0).property_id ∧ p.user_id = 1) ∧
    (∀ p ∈ searchDbEx.properties,
      p.id = (Hit.mk 100 10 "c1" "t1" 0).property_id → p.user_id = 1) := by
  have hscore : searchScores [(0 : ℚ)] searchDbEx 1 none = [(0 : ℝ)] := by
    show cosine_similarity [(0 : ℚ)] [[1]] = [(0 : ℝ)]
    simp [cosine_similarity, sumSq]
  have hargs : argsortAsc (searchScores [(0 : ℚ)] searchDbEx 1 none) = [0] := by
    rw [hscore]
    have hr : List.range 1 = [0] := rfl
    simp only [argsortAsc, List.length_singleton, hr,
      List.foldl_cons, List.foldl_nil, insertAscBy]
  have heval : search (fun _ => [[(0 : ℚ)]]) "q" searchDbEx 1 none 6 =
      [Hit.mk 100 10 "c1" "t1" 0] := by
    have hrfl : search (fun _ => [[(0 : ℚ)]]) "q" searchDbEx 1 none 6 =
        ((argsortAsc (searchScores [(0 : ℚ)] searchDbEx 1 none)).reverse.take
          (max 1 6)).map (fun i =>
          Hit.mk ((validCandidates searchDbEx 1 none).getD i dummyCand).1.1.document_id
            ((validCandidates searchDbEx 1 none).getD i dummyCand).1.2
            ((validCandidates searchDbEx 1 none).getD i dummyCand).1.1.chunk_id
            ((validCandidates searchDbEx 1 none).getD i dummyCand).1.1.text
            ((searchScores [(0 : ℚ)] searchDbEx 1 none).getD i 0)) := rfl
    rw [hrfl, hargs, hscore]
    rfl
  exact search_tenant_isolation (fun _ => [[(0 : ℚ)]]) "q" searchDbEx 1 none 6
    (Hit.mk 100 10 "c1" "t1" 0) (by decide) (by rw [heval]; simp)

/-! ## The batch-ingestion background job
(`backend/app/routes/documents.py`, `_sanitize_filename` lines 30-35 and
`_process_zip_in_background` lines 142-201)

Bytes are modelled as `List ℕ`; the per-document ingest sub-pipeline
`_ingest_pdf_content` (PDF extraction, chunking, embedding, persistence —
all effectful) is a function parameter returning `Except`: `ok` is a
successful ingest with the updated ingest state, `error` any raised
exception (the source's `except Exception` arm, which rolls the entry
back). -/

/-- Character class `[A-Za-z0-9._-]` of `_sanitize_filename`'s regex. -/
def allowedFileChar (c : Char) : Bool :=
  ('A' ≤ c ∧ c ≤ 'Z') ∨ ('a' ≤ c ∧ c ≤ 'z') ∨ ('0' ≤ c ∧ c ≤ '9') ∨
    c = '.' ∨ c = '_' ∨ c = '-'

mutual

/-- `re.sub(r"[^A-Za-z0-9._-]+", "_", ·)`: copy allowed characters, replace
each maximal run of disallowed characters by one underscore. -/
def subBadChars : List Char → List Char
  | [] => []
  | c :: r =>
    if allowedFileChar c then c :: subBadChars r else '_' :: skipBadChars r

/-- State of `subBadChars` inside a disallowed run (the replacement
underscore has been emitted already). -/
def skipBadChars : List Char → List Char
  | [] => []
  | c :: r => if allowedFileChar c then c :: subBadChars r else skipBadChars r

end

/-- Python `str.strip("._")`. -/
def stripDotUnders (l : List Char) : List Char :=
  ((l.dropWhile (fun c => c = '.' ∨ c = '_')).reverse.dropWhile
    (fun c => c = '.' ∨ c = '_')).reverse

/-- `os.path.basename` (POSIX): everything after the last `/`. -/
def pyBasename (l : List Char) : List Char :=
  (l.reverse.takeWhile (fun c => ¬ c = '/')).reverse

/-- Model of `_sanitize_filename`; `error` models the raised
`HTTPException(400, "Invalid filename")`. -/
def sanitize_filename (filename : String) : Except String String :=
  let name := pyStrip (pyBasename filename.data)
  let safe := stripDotUnders (subBadChars name)
  if safe = [] then Except.error "Invalid filename"
  else Except.ok safe.asString

/-- One archive member, as read from `zipfile.ZipFile.infolist()`. -/
structure ZipEntry where
  filename : String
  isDir : Bool
  content : List ℕ
  deriving DecidableEq, Repr

/-- The `UploadJob` row fields mutated by the background worker. -/
structure JobState where
  status : String
  processed_count : ℕ
  failed_count : ℕ
  failed_filenames : List String
  deriving DecidableEq, Repr

/-- The `b"%PDF"` signature. -/
def pdfMagic : List ℕ := [37, 80, 68, 70]

/-- ASCII lowercasing of one character (Python `str.lower` on the ASCII
filenames handled here). -/
def asciiLower (c : Char) : Char :=
  if 'A' ≤ c ∧ c ≤ 'Z' then Char.ofNat (c.toNat + 32) else c

/-- `entry.filename.lower().endswith(".pdf")`. -/
def lowerNameIsPdf (s : String) : Bool :=
  (".pdf".data).isSuffixOf (s.data.map asciiLower)

/-- The candidate list of the worker: non-directory entries whose lowercased
name ends in `.pdf`. -/
def pdfEntries (entries : List ZipEntry) : List ZipEntry :=
  (entries.filter (fun e => !e.isDir)).filter (fun e => lowerNameIsPdf e.filename)

/-- One iteration of the worker's `for entry in pdf_entries` loop, on the
accumulator (ingest state, processed_count, failed_count, failed_filenames).
A sanitize failure or an ingest exception records the raw `entry.filename`;
a size/signature pre-check failure records the sanitized name; a successful
ingest bumps `processed_count`; every failure path continues the loop. -/
def processZipEntry {σ : Type} (ingest : σ → String → List ℕ → Except String σ)
    (maxPdfBytes : ℕ) (st : σ × ℕ × ℕ × List String) (e : ZipEntry) :
    σ × ℕ × ℕ × List String :=
  match sanitize_filename e.filename with
  | Except.error _ => (st.1, st.2.1, st.2.2.1 + 1, st.2.2.2 ++ [e.filename])
  | Except.ok inner_name =>
    if maxPdfBytes < e.content.length ∨ ¬ pdfMagic.isPrefixOf e.content then
      (st.1, st.2.1, st.2.2.1 + 1, st.2.2.2 ++ [inner_name])
    else
      match ingest st.1 inner_name e.content with
      | Except.ok s2 => (s2, st.2.1 + 1, st.2.2.1, st.2.2.2)
      | Except.error _ => (st.1, st.2.1, st.2.2.1 + 1, st.2.2.2 ++ [e.filename])

/-- Model of `_process_zip_in_background(job_id, property_id, zip_content)`.
`job0` is the job row looked up by id (`none`: job vanished, return),
`property_exists` the property lookup.  A missing property ends the job as
`"failed"`; otherwise every candidate entry is attempted in order (the job
meanwhile carries status `"processing"`) and the job always ends
`"completed"` with the final tallies.  Returns the final job row and the
final ingest state. -/
def process_zip_in_background {σ : Type}
    (ingest : σ → String → List ℕ → Except String σ) (maxPdfBytes : ℕ)
    (job0 : Option JobState) (property_exists : Bool)
    (entries : List ZipEntry) (s0 : σ) : Option JobState × σ :=
  match job0 with
  | none => (none, s0)
  | some job =>
    if property_exists then
      let r := (pdfEntries entries).foldl (processZipEntry ingest maxPdfBytes)
        (s0, 0, 0, [])
      (some { job with
          status := "completed"
          processed_count := r.2.1
          failed_count := r.2.2.1
          failed_filenames := r.2.2.2 }, r.1)
    else
      (some { job with status := "failed" }, s0)

theorem processZipEntry_sanitize_error {σ : Type}
    (ingest : σ → String → List ℕ → Except String σ) (maxPdfBytes : ℕ)
    (s : σ) (p f : ℕ) (ns : List String) (e : ZipEntry) (msg : String)
    (hs : sanitize_filename e.filename = Except.error msg) :
    processZipEntry ingest maxPdfBytes (s, p, f, ns) e =
      (s, p, f + 1, ns ++ [e.filename]) := by
  unfold processZipEntry
  simp only [hs]

theorem processZipEntry_precheck_fail {σ : Type}
    (ingest : σ → String → List ℕ → Except String σ) (maxPdfBytes : ℕ)
    (s : σ) (p f : ℕ) (ns : List String) (e : ZipEntry) (inner : String)
    (hs : sanitize_filename e.filename = Except.ok inner)
    (hc : maxPdfBytes < e.content.length ∨ ¬ pdfMagic.isPrefixOf e.content) :
    processZipEntry ingest maxPdfBytes (s, p, f, ns) e =
      (s, p, f + 1, ns ++ [inner]) := by
  unfold processZipEntry
  simp only [hs]
  rw [if_pos hc]

theorem processZipEntry_ingest_ok {σ : Type}
    (ingest : σ → String → List ℕ → Except String σ) (maxPdfBytes : ℕ)
    (s : σ) (p f : ℕ) (ns : List String) (e : ZipEntry) (inner : String) (s2 : σ)
    (hs : sanitize_filename e.filename = Except.ok inner)
    (hc : ¬ (maxPdfBytes < e.content.length ∨ ¬ pdfMagic.isPrefixOf e.content))
    (hi : ingest s inner e.content = Except.ok s2) :
    processZipEntry ingest maxPdfBytes (s, p, f, ns) e =
      (s2, p + 1, f, ns) := by
  unfold processZipEntry
  simp only [hs]
  rw [if_neg hc]
  simp only [hi]

theorem processZipEntry_ingest_error {σ : Type}
    (ingest : σ → String → List ℕ → Except String σ) (maxPdfBytes : ℕ)
    (s : σ) (p f : ℕ) (ns : List String) (e : ZipEntry) (inner msg : String)
    (hs : sanitize_filename e.filename = Except.ok inner)
    (hc : ¬ (maxPdfBytes < e.content.length ∨ ¬ pdfMagic.isPrefixOf e.content))
    (hi : ingest s inner e.content = Except.error msg) :
    processZipEntry ingest maxPdfBytes (s, p, f, ns) e =
      (s, p, f + 1, ns ++ [e.filename]) := by
  unfold processZipEntry
  simp only [hs]
  rw [if_neg hc]
  simp only [hi]

theorem zipFold_invariant {σ : Type}
    (ingest : σ → String → List ℕ → Except String σ) (maxPdfBytes : ℕ) :
    ∀ (l : List ZipEntry) (s : σ) (p f : ℕ) (ns : List String),
      (l.foldl (processZipEntry ingest maxPdfBytes) (s, p, f, ns)).2.1 +
        (l.foldl (processZipEntry ingest maxPdfBytes) (s, p, f, ns)).2.2.1 =
        p + f + l.length ∧
      (l.foldl (processZipEntry ingest maxPdfBytes) (s, p, f, ns)).2.2.2.length + f =
        (l.foldl (processZipEntry ingest maxPdfBytes) (s, p, f, ns)).2.2.1 + ns.length ∧
      ∀ n ∈ (l.foldl (processZipEntry ingest maxPdfBytes) (s, p, f, ns)).2.2.2,
        n ∈ ns ∨ ∃ e ∈ l, n = e.filename ∨ sanitize_filename e.filename = Except.ok n := by
  intro l
  induction l with
  | nil =>
    intro s p f ns
    refine ⟨by simp, by simp [Nat.add_comm], by simp⟩
  | cons e rest ih =>
    intro s p f ns
    have key : ∀ (s2 : σ) (p2 f2 : ℕ) (ns2 : List String),
        processZipEntry ingest maxPdfBytes (s, p, f, ns) e = (s2, p2, f2, ns2) →
        p2 + f2 = p + f + 1 ∧ ns2.length + f = f2 + ns.length ∧
        ∀ n ∈ ns2, n ∈ ns ∨ n = e.filename ∨
          sanitize_filename e.filename = Except.ok n := by
      intro s2 p2 f2 ns2 heq
      cases hs : sanitize_filename e.filename with
      | error msg =>
        rw [processZipEntry_sanitize_error ingest maxPdfBytes s p f ns e msg hs] at heq
        injection heq with h1 h2
        injection h2 with h2 h3
        injection h3 with h3 h4
        subst h2; subst h3; subst h4
        refine ⟨by omega, by simp; omega, ?_⟩
        intro n hn
        rcases List.mem_append.mp hn with h | h
        · exact Or.inl h
        · simp at h; exact Or.inr (Or.inl h)
      | ok inner =>
        by_cases hc : maxPdfBytes < e.content.length ∨ ¬ pdfMagic.isPrefixOf e.content
        · rw [processZipEntry_precheck_fail ingest maxPdfBytes s p f ns e inner hs hc] at heq
          injection heq with h1 h2
          injection h2 with h2 h3
          injection h3 with h3 h4
          subst h2; subst h3; subst h4
          refine ⟨by omega, by simp; omega, ?_⟩
          intro n hn
          rcases List.mem_append.mp hn with h | h
          · exact Or.inl h
          · simp at h; subst h; exact Or.inr (Or.inr rfl)
        · cases hi : ingest s inner e.content with
          | ok snew =>
            rw [processZipEntry_ingest_ok ingest maxPdfBytes s p f ns e inner snew hs hc hi] at heq
            injection heq with h1 h2
            injection h2 with h2 h3
            injection h3 with h3 h4
            subst h2; subst h3; subst h4
            exact ⟨by omega, by omega, fun n hn => Or.inl hn⟩
          | error msg =>
            rw [processZipEntry_ingest_error ingest maxPdfBytes s p f ns e inner msg hs hc hi] at heq
            injection heq with h1 h2
            injection h2 with h2 h3
            injection h3 with h3 h4
            subst h2; subst h3; subst h4
            refine ⟨by omega, by simp; omega, ?_⟩
            intro n hn
            rcases List.mem_append.mp hn with h | h
            · exact Or.inl h
            · simp at h; exact Or.inr (Or.inl h)
    rw [List.foldl_cons]
    rcases hstep : processZipEntry ingest maxPdfBytes (s, p, f, ns) e with
      ⟨s2, p2, f2, ns2⟩
    rcases key s2 p2 f2 ns2 hstep with ⟨k1, k2, k3⟩
    rcases ih s2 p2 f2 ns2 with ⟨i1, i2, i3⟩
    refine ⟨by simp; omega, by omega, ?_⟩
    intro n hn
    rcases i3 n hn with h | ⟨e2, he2, h⟩
    · rcases k3 n h with h | h
      · exact Or.inl h
      · exact Or.inr ⟨e, List.mem_cons_self e rest, h⟩
    · exact Or.inr ⟨e2, List.mem_cons_of_mem e he2, h⟩

/-- C4: batch partial-failure tolerance.  When the job row and the owning
property exist, for every ingest behaviour, size limit and archive: the job
always ends with status "completed", the processed and failed tallies sum
to the number of attempted candidate entries (so no per-entry failure of
any kind aborts the batch), `failed_filenames` has exactly one name per
failed entry, and every recorded name is the (raw or sanitized) filename of
some attempted entry. -/
theorem process_zip_batch_partial_failure {σ : Type}
    (ingest : σ → String → List ℕ → Except String σ) (maxPdfBytes : ℕ)
    (job : JobState) (entries : List ZipEntry) (s0 : σ) :
    ∃ j : JobState,
      (process_zip_in_background ingest maxPdfBytes (some job) true entries
        s0).1 = some j ∧
      j.status = "completed" ∧
      j.processed_count + j.failed_count = (pdfEntries entries).length ∧
      j.failed_filenames.length = j.failed_count ∧
      ∀ n ∈ j.failed_filenames, ∃ e ∈ pdfEntries entries,
        n = e.filename ∨ sanitize_filename e.filename = Except.ok n := by
  rcases zipFold_invariant ingest maxPdfBytes (pdfEntries entries) s0 0 0 []
    with ⟨h1, h2, h3⟩
  refine ⟨_, rfl, rfl, by simpa using h1, by simpa using h2, ?_⟩
  intro n hn
  rcases h3 n hn with h | h
  · simp at h
  · exact h

/-- Counterexample to C3 as stated: a batch whose single attempted entry
fails (bad signature), with the property present and the ingest pipeline
healthy, ends with `processed_count = 0`, `failed_count = 1` — and status
"completed", not "failed". -/
theorem zip_zero_success_completed_counterexample :
    process_zip_in_background (fun (s : Unit) _ _ => Except.ok s) 1000
      (some (JobState.mk "pending" 0 0 [])) true
      [ZipEntry.mk "bad.pdf" false [0]] () =
      (some (JobState.mk "completed" 0 1 ["bad.pdf"]), ()) ∧
    ¬ (JobState.mk "completed" 0 1 ["bad.pdf"]).status = "failed" := by
  constructor
  · rfl
  · decide

theorem zipFold_all_fail {σ : Type}
    (ingest : σ → String → List ℕ → Except String σ) (maxPdfBytes : ℕ)
    (hfail : ∀ (s : σ) (n : String) (c : List ℕ), ∃ m,
      ingest s n c = Except.error m) :
    ∀ (l : List ZipEntry) (s : σ) (p f : ℕ) (ns : List String),
      (l.foldl (processZipEntry ingest maxPdfBytes) (s, p, f, ns)).2.1 = p ∧
      (l.foldl (processZipEntry ingest maxPdfBytes) (s, p, f, ns)).2.2.1 =
        f + l.length := by
  intro l
  induction l with
  | nil => intro s p f ns; simp
  | cons e rest ih =>
    intro s p f ns
    rw [List.foldl_cons]
    have hone : ∃ s2 ns2, processZipEntry ingest maxPdfBytes (s, p, f, ns) e =
        (s2, p, f + 1, ns2) := by
      cases hs : sanitize_filename e.filename with
      | error msg =>
        exact ⟨s, ns ++ [e.filename],
          processZipEntry_sanitize_error ingest maxPdfBytes s p f ns e msg hs⟩
      | ok inner =>
        by_cases hc : maxPdfBytes < e.content.length ∨
            ¬ pdfMagic.isPrefixOf e.content
        · exact ⟨s, ns ++ [inner],
            processZipEntry_precheck_fail ingest maxPdfBytes s p f ns e inner hs hc⟩
        · rcases hfail s inner e.content with ⟨m, hm⟩
          exact ⟨s, ns ++ [e.filename],
            processZipEntry_ingest_error ingest maxPdfBytes s p f ns e inner m hs hc hm⟩
    rcases hone with ⟨s2, ns2, heq⟩
    rw [heq]
    rcases ih s2 p (f + 1) ns2 with ⟨i1, i2⟩
    exact ⟨i1, by rw [i2]; simp; omega⟩

/-- C3 as amended: a batch in which every attempted entry fails (here: the
ingest sub-pipeline always raises, so no mix of pre-check and ingest
failures can succeed) still ends with status "completed" and the failure
recorded only in the tallies — `processed_count = 0` and
`failed_count ≥ 1`; status "failed" is reserved for a missing property or
a crashed worker. -/
theorem process_zip_zero_success_completes {σ : Type}
    (ingest : σ → String → List ℕ → Except String σ) (maxPdfBytes : ℕ)
    (job : JobState) (entries : List ZipEntry) (s0 : σ)
    (hfail : ∀ (s : σ) (n : String) (c : List ℕ), ∃ m,
      ingest s n c = Except.error m)
    (hne : ¬ pdfEntries entries = []) :
    ∃ j : JobState,
      (process_zip_in_background ingest maxPdfBytes (some job) true entries
        s0).1 = some j ∧
      j.status = "completed" ∧ j.processed_count = 0 ∧ 1 ≤ j.failed_count := by
  rcases zipFold_all_fail ingest maxPdfBytes hfail (pdfEntries entries) s0 0 0 []
    with ⟨h1, h2⟩
  refine ⟨_, rfl, rfl, by simpa using h1, ?_⟩
  have hlen : 1 ≤ (pdfEntries entries).length :=
    Nat.succ_le_of_lt (List.length_pos.mpr hne)
  simp only [h2]
  omega

/-- Witness for the amended C3: one well-formed PDF entry whose ingest fails
(embedding service down) yields a completed job with zero successes. -/
theorem process_zip_zero_success_completes_witness :
    ∃ j : JobState,
      (process_zip_in_background
        (fun (_ : Unit) _ _ => (Except.error "embedding down" : Except String Unit))
        1000000 (some (JobState.mk "pending" 0 0 [])) true
        [ZipEntry.mk "a.pdf" false [37, 80, 68, 70]] ()).1 = some j ∧
      j.status = "completed" ∧ j.processed_count = 0 ∧ 1 ≤ j.failed_count :=
  process_zip_zero_success_completes
    (fun (_ : Unit) _ _ => (Except.error "embedding down" : Except String Unit))
    1000000 (JobState.mk "pending" 0 0 [])
    [ZipEntry.mk "a.pdf" false [37, 80, 68, 70]] ()
    (fun _ _ _ => ⟨"embedding down", rfl⟩) (by decide)

/-! ## `pdf_ingest._compute_quality_score`
(`backend/app/pdf_ingest.py`, lines 95-101) -/

/-- Python `round()` to an integer: round half to even (banker's
rounding), on exact rationals. -/
def roundHalfEven (q : ℚ) : ℤ :=
  if q - Int.floor q < 1 / 2 then Int.floor q
  else if 1 / 2 < q - Int.floor q then Int.floor q + 1
  else if Even (Int.floor q) then Int.floor q else Int.floor q + 1

/-- Python `round(·, 3)`. -/
def roundTo3 (q : ℚ) : ℚ := (roundHalfEven (q * 1000) : ℚ) / 1000

/-- Model of `_compute_quality_score(total_pages, pages_with_text,
text_length)`; the float constants `0.6`, `0.4`, `15000.0` are the exact
rationals they denote. -/
def compute_quality_score (total_pages pages_with_text text_length : ℤ) : ℚ :=
  if total_pages ≤ 0 then 0
  else
    roundTo3 (min 1 ((6 / 10) * ((pages_with_text : ℚ) / (total_pages : ℚ)) +
      (4 / 10) * min 1 ((text_length : ℚ) / 15000)))

/-- The quality-score formula exactly as the specification words it:
`min(1, 0.6 * pagesWithText/totalPages + 0.4 * min(1, textLength/15000))`
rounded to 3 decimals, and `0` when there are no pages. -/
def quality_score_spec (total_pages pages_with_text text_length : ℤ) : ℚ :=
  if total_pages = 0 then 0
  else
    roundTo3 (min 1 ((6 / 10) * ((pages_with_text : ℚ) / (total_pages : ℚ)) +
      (4 / 10) * min 1 ((text_length : ℚ) / 15000)))

/-- C7: for every `totalPages ≥ 1` the extraction quality score equals the
specification's formula (3-decimal rounding included), it equals `0` when
`totalPages = 0`, and the concrete document with 10 pages, 5 extractable
pages and 7500 characters scores exactly `0.5`. -/
theorem compute_quality_score_formula (t p L : ℤ) (ht : 1 ≤ t) :
    compute_quality_score t p L = quality_score_spec t p L ∧
    compute_quality_score 0 p L = 0 ∧
    compute_quality_score 10 5 7500 = 1 / 2 := by
  refine ⟨?_, rfl, ?_⟩
  · unfold compute_quality_score quality_score_spec
    rw [if_neg (by omega), if_neg (by omega)]
  · unfold compute_quality_score
    rw [if_neg (by omega)]
    have harg : min 1 ((6 / 10 : ℚ) * (((5 : ℤ) : ℚ) / ((10 : ℤ) : ℚ)) +
        (4 / 10) * min 1 ((((7500 : ℤ) : ℚ)) / 15000)) = 1 / 2 := by
      norm_num
    rw [harg]
    unfold roundTo3 roundHalfEven
    norm_num

/-- Witness for C7 at the specification's own example input. -/
theorem compute_quality_score_formula_witness :
    compute_quality_score 10 5 7500 = quality_score_spec 10 5 7500 ∧
    compute_quality_score 0 5 7500 = 0 ∧
    compute_quality_score 10 5 7500 = 1 / 2 :=
  compute_quality_score_formula 10 5 7500 (by norm_num)

/-! ## `pdf_ingest._chunk_text_block`
(`backend/app/pdf_ingest.py`, lines 143-158) -/

/-- The `while start < len(text)` loop of `_chunk_text_block`, with an
explicit fuel argument (any fuel ≥ remaining length is enough; the caller
passes `t.length + 1`).  Each pass emits `text[start:end]` with
`end = min(len(text), start + max_chars)`, stops if `end` reached the end,
and otherwise continues from `end - overlap` (truncated natural
subtraction models the source's clamp of a negative start to `0`). -/
def chunkLoop (t : List Char) (mx ov : ℕ) : ℕ → ℕ → List (List Char)
  | 0, _ => []
  | fuel + 1, start =>
    if start < t.length then
      if min t.length (start + mx) = t.length then [(t.drop start).take mx]
      else
        (t.drop start).take mx ::
          chunkLoop t mx ov fuel (min t.length (start + mx) - ov)
    else []

/-- Model of `_chunk_text_block(text, max_chars, overlap)`. -/
def chunk_text_block (t : List Char) (mx ov : ℕ) : List (List Char) :=
  if pyStrip t = [] then []
  else chunkLoop (pyStrip t) mx ov ((pyStrip t).length + 1) 0

theorem chunkLoop_zero (t : List Char) (mx ov start : ℕ) :
    chunkLoop t mx ov 0 start = [] := rfl

theorem chunkLoop_succ (t : List Char) (mx ov fuel start : ℕ) :
    chunkLoop t mx ov (fuel + 1) start =
      if start < t.length then
        if min t.length (start + mx) = t.length then [(t.drop start).take mx]
        else
          (t.drop start).take mx ::
            chunkLoop t mx ov fuel (min t.length (start + mx) - ov)
      else [] := rfl

theorem chunkLoop_spec (t : List Char) (mx ov : ℕ) (hov : ov < mx) :
    ∀ (fuel start : ℕ), t.length ≤ start + fuel →
      ∀ i, i < (chunkLoop t mx ov fuel start).length →
        (chunkLoop t mx ov fuel start).getD i [] =
          (t.drop (start + i * (mx - ov))).take mx ∧
        (i + 1 < (chunkLoop t mx ov fuel start).length →
          start + i * (mx - ov) + mx < t.length) := by
  intro fuel
  induction fuel with
  | zero =>
    intro start hf i h
    rw [chunkLoop_zero] at h
    simp at h
  | succ fuel ih =>
    intro start hf i h
    by_cases hstart : start < t.length
    · by_cases hend : min t.length (start + mx) = t.length
      · have hL : chunkLoop t mx ov (fuel + 1) start = [(t.drop start).take mx] := by
          rw [chunkLoop_succ, if_pos hstart, if_pos hend]
        have hlen1 : (chunkLoop t mx ov (fuel + 1) start).length = 1 := by
          rw [hL]; rfl
        have hi0 : i = 0 := by omega
        subst hi0
        constructor
        · rw [hL]
          norm_num
        · intro hcontra
          omega
      · have hlt : start + mx < t.length := by
          rcases le_or_lt t.length (start + mx) with hle | hlt
          · exact absurd (min_eq_left hle) hend
          · exact hlt
        have hmin : min t.length (start + mx) = start + mx :=
          min_eq_right (le_of_lt hlt)
        have hL : chunkLoop t mx ov (fuel + 1) start =
            (t.drop start).take mx ::
              chunkLoop t mx ov fuel (start + mx - ov) := by
          rw [chunkLoop_succ, if_pos hstart, if_neg hend, hmin]
        cases i with
        | zero =>
          constructor
          · rw [hL]
            norm_num
          · intro _
            simpa using hlt
        | succ j =>
          have hf2 : t.length ≤ (start + mx - ov) + fuel := by omega
          have hj : j < (chunkLoop t mx ov fuel (start + mx - ov)).length := by
            have h2 := h
            rw [hL] at h2
            simpa using h2
          rcases ih (start + mx - ov) hf2 j hj with ⟨h1, h2⟩
          have hidx : start + mx - ov + j * (mx - ov) =
              start + (j + 1) * (mx - ov) := by
            have : (j + 1) * (mx - ov) = j * (mx - ov) + (mx - ov) :=
              Nat.succ_mul j (mx - ov)
            omega
          constructor
          · rw [hL, List.getD_cons_succ, h1, hidx]
          · intro hnext
            have hnext2 : j + 1 <
                (chunkLoop t mx ov fuel (start + mx - ov)).length := by
              rw [hL] at hnext
              simpa using hnext
            have := h2 hnext2
            omega
    · have hL : chunkLoop t mx ov (fuel + 1) start = [] := by
        rw [chunkLoop_succ, if_neg hstart]
      rw [hL] at h
      simp at h

/-- C6: overlap invariant of the prose sliding window.  For
`0 ≤ overlap < maxChars` and any window that has a successor: the window is
full (`maxChars` characters — only the last window may be shorter), it is
the slice of the stripped text starting at `i * (maxChars - overlap)` (the
scan advances by `maxChars - overlap` per full window), its last `overlap`
characters equal the next window's first `overlap` characters, and the
next window never exceeds `maxChars`. -/
theorem chunk_text_block_overlap (t : List Char) (mx ov i : ℕ)
    (hov : ov < mx) (h : i + 1 < (chunk_text_block t mx ov).length) :
    ((chunk_text_block t mx ov).getD i []).length = mx ∧
    ((chunk_text_block t mx ov).getD i []).drop (mx - ov) =
      ((chunk_text_block t mx ov).getD (i + 1) []).take ov ∧
    (chunk_text_block t mx ov).getD i [] =
      ((pyStrip t).drop (i * (mx - ov))).take mx ∧
    ((chunk_text_block t mx ov).getD (i + 1) []).length ≤ mx := by
  by_cases hs : pyStrip t = []
  · rw [chunk_text_block, if_pos hs] at h
    simp at h
  · have hL : chunk_text_block t mx ov =
        chunkLoop (pyStrip t) mx ov ((pyStrip t).length + 1) 0 := by
      rw [chunk_text_block, if_neg hs]
    have hf : (pyStrip t).length ≤ 0 + ((pyStrip t).length + 1) := by omega
    have hi : i < (chunk_text_block t mx ov).length := by omega
    rcases chunkLoop_spec (pyStrip t) mx ov hov ((pyStrip t).length + 1) 0 hf i
      (by rw [← hL]; exact hi) with ⟨g1, g2⟩
    rcases chunkLoop_spec (pyStrip t) mx ov hov ((pyStrip t).length + 1) 0 hf
      (i + 1) (by rw [← hL]; exact h) with ⟨g3, _⟩
    rw [← hL] at g1 g2 g3
    have hlt : 0 + i * (mx - ov) + mx < (pyStrip t).length := g2 h
    have hpos : 0 + (i + 1) * (mx - ov) = 0 + i * (mx - ov) + (mx - ov) := by
      ring
    refine ⟨?_, ?_, ?_, ?_⟩
    · rw [g1]
      simp only [List.length_take, List.length_drop]
      omega
    · rw [g1, g3, List.drop_take, List.take_take, List.drop_drop, hpos]
      have h1 : mx - (mx - ov) = ov := by omega
      have h2 : min ov mx = ov := min_eq_left (le_of_lt hov)
      rw [h1, h2]
    · rw [g1]
      norm_num
    · rw [g3]
      simp only [List.length_take]
      omega

/-- Witness for C6: windows of `"abcdefgh"` with `maxChars = 3`,
`overlap = 1` are `abc / cde / efg / gh`; checked at the second window. -/
theorem chunk_text_block_overlap_witness :
    ((chunk_text_block ("abcdefgh".data) 3 1).getD 1 []).length = 3 ∧
    ((chunk_text_block ("abcdefgh".data) 3 1).getD 1 []).drop (3 - 1) =
      ((chunk_text_block ("abcdefgh".data) 3 1).getD 2 []).take 1 ∧
    (chunk_text_block ("abcdefgh".data) 3 1).getD 1 [] =
      ((pyStrip ("abcdefgh".data)).drop (1 * (3 - 1))).take 3 ∧
    ((chunk_text_block ("abcdefgh".data) 3 1).getD 2 []).length ≤ 3 :=
  chunk_text_block_overlap ("abcdefgh".data) 3 1 1 (by decide) (by decide)

/-! ## `pdf_ingest._looks_like_header` and `pdf_ingest._render_table`
(`backend/app/pdf_ingest.py`, lines 11-60) -/

/-- One character of the regex `[A-Za-zÄÖÜäöü]` (the `re.search` letter
test; standard ASCII letters plus the German umlauts the source lists). -/
def headerLetterChar (c : Char) : Bool :=
  ('A' ≤ c ∧ c ≤ 'Z') ∨ ('a' ≤ c ∧ c ≤ 'z') ∨
    c = 'Ä' ∨ c = 'Ö' ∨ c = 'Ü' ∨ c = 'ä' ∨ c = 'ö' ∨ c = 'ü'

/-- Does the cell contain a letter (`re.search(r"[A-Za-zÄÖÜäöü]", cell)`)? -/
def hasLetter (s : String) : Bool := s.data.any headerLetterChar

/-- One character of the numeric-looking regex class: digits and the
characters dot, comma, dash, slash, percent (digits modelled as the ASCII
digits appearing in extracted tables). -/
def numericLookChar (c : Char) : Bool :=
  ('0' ≤ c ∧ c ≤ '9') ∨ c = '.' ∨ c = ',' ∨ c = '-' ∨ c = '/' ∨ c = '%'

/-- The `re.fullmatch` numeric-cell test: non-empty and all characters in
the numeric-looking class. -/
def numericLooking (s : String) : Bool :=
  ¬ s.data = [] ∧ s.data.all numericLookChar

/-- `non_empty = [cell for cell in row if cell]`. -/
def nonEmptyCells (row : List String) : List String :=
  row.filter (fun c => ¬ c = "")

/-- `alpha_cells = sum(1 for cell in non_empty if re.search(letters, cell))`. -/
def alphaCellCount (row : List String) : ℕ :=
  ((nonEmptyCells row).filter hasLetter).length

/-- The source's inner branch: `if second_row:` then
`if second_non_empty and alpha_cells >= max(1, len(non_empty) // 2):
return True`. -/
def secondRowTriggers (first_row : List String)
    (second_row : Option (List String)) : Bool :=
  match second_row with
  | none => false
  | some sr =>
    ¬ sr = [] ∧ ¬ nonEmptyCells sr = [] ∧
      max 1 ((nonEmptyCells first_row).length / 2) ≤ alphaCellCount first_row

/-- Model of `_looks_like_header(first_row, second_row)`. -/
def looks_like_header (first_row : List String)
    (second_row : Option (List String)) : Bool :=
  if first_row = [] then false
  else if nonEmptyCells first_row = [] then false
  else if (nonEmptyCells first_row).all numericLooking then false
  else if secondRowTriggers first_row second_row then true
  else alphaCellCount first_row = (nonEmptyCells first_row).length

/-- `second_row` is present and has at least one non-empty cell (the claim's
wording for case (b')). -/
def secondHasNonEmpty (second_row : Option (List String)) : Prop :=
  match second_row with
  | none => False
  | some sr => ¬ nonEmptyCells sr = []

instance (second_row : Option (List String)) :
    Decidable (secondHasNonEmpty second_row) := by
  unfold secondHasNonEmpty
  cases second_row <;> infer_instance

/-- The claim's header condition read literally: (a) at least one non-empty
cell, and (b) every non-empty cell is non-numeric-looking and contains a
letter, or (b') the second row has a non-empty cell and at least half of
the first row's non-empty cells contain letters (`2 * alpha ≥ n`). -/
def header_claim_strict (first_row : List String)
    (second_row : Option (List String)) : Prop :=
  ¬ nonEmptyCells first_row = [] ∧
  ((∀ c ∈ nonEmptyCells first_row,
      numericLooking c = false ∧ hasLetter c = true) ∨
   (secondHasNonEmpty second_row ∧
      (nonEmptyCells first_row).length ≤ 2 * alphaCellCount first_row))

/-- The claim amended at its (b') threshold: the source compares against
`max(1, n // 2)` (integer floor division), not against `n / 2` exactly. -/
def header_claim_amended (first_row : List String)
    (second_row : Option (List String)) : Prop :=
  ¬ nonEmptyCells first_row = [] ∧
  ((∀ c ∈ nonEmptyCells first_row,
      numericLooking c = false ∧ hasLetter c = true) ∨
   (secondHasNonEmpty second_row ∧
      max 1 ((nonEmptyCells first_row).length / 2) ≤ alphaCellCount first_row))

theorem headerLetter_not_numeric (c : Char) (h : headerLetterChar c = true) :
    numericLookChar c = false := by
  have h2 : ('A' ≤ c ∧ c ≤ 'Z') ∨ ('a' ≤ c ∧ c ≤ 'z') ∨
      c = 'Ä' ∨ c = 'Ö' ∨ c = 'Ü' ∨ c = 'ä' ∨ c = 'ö' ∨ c = 'ü' := by
    simpa [headerLetterChar] using h
  have goal_iff : numericLookChar c = false ↔
      ¬ (('0' ≤ c ∧ c ≤ '9') ∨ c = '.' ∨ c = ',' ∨ c = '-' ∨ c = '/' ∨
        c = '%') := by
    simp [numericLookChar]
  rw [goal_iff]
  rcases h2 with ⟨h1, _⟩ | h2
  · rintro (⟨_, hle⟩ | rfl | rfl | rfl | rfl | rfl)
    · exact absurd (le_trans h1 hle) (by decide)
    all_goals exact absurd h1 (by decide)
  rcases h2 with ⟨h1, _⟩ | h2
  · rintro (⟨_, hle⟩ | rfl | rfl | rfl | rfl | rfl)
    · exact absurd (le_trans h1 hle) (by decide)
    all_goals exact absurd h1 (by decide)
  rcases h2 with rfl | rfl | rfl | rfl | rfl | rfl <;> decide

theorem hasLetter_not_numericLooking (s : String) (h : hasLetter s = true) :
    numericLooking s = false := by
  rcases List.any_eq_true.mp h with ⟨c, hc, hlet⟩
  have hnum := headerLetter_not_numeric c hlet
  simp only [numericLooking]
  by_cases hempty : s.data = []
  · rw [hempty] at hc; simp at hc
  · have : ¬ s.data.all numericLookChar = true := by
      intro hall
      have := List.all_eq_true.mp hall c hc
      rw [hnum] at this
      exact Bool.false_ne_true this
    simp [hempty, this]

mutual

/-- `re.sub(pattern+, rep, ·)` for a one-character class: copy characters,
replacing each maximal run matching `p` by the single character `rep`. -/
def collapseRuns (p : Char → Bool) (rep : Char) : List Char → List Char
  | [] => []
  | c :: r =>
    if p c then rep :: collapseRunsSkip p rep r else c :: collapseRuns p rep r

/-- State of `collapseRuns` inside a matched run (replacement emitted). -/
def collapseRunsSkip (p : Char → Bool) (rep : Char) : List Char → List Char
  | [] => []
  | c :: r =>
    if p c then collapseRunsSkip p rep r else c :: collapseRuns p rep r

end

/-- Model of `_clean_cell(value)`: `None` becomes `""`; otherwise carriage
returns become newlines, each newline run becomes one space, each
whitespace run becomes one space, and the result is stripped.  (`str(value)`
on the non-`None` table cells is the string itself; pdfplumber yields
strings or `None`.) -/
def clean_cell (value : Option String) : String :=
  match value with
  | none => ""
  | some s =>
    (pyStrip (collapseRuns isPySpace ' '
      (collapseRuns (fun c => c = '\n') ' '
        (s.data.map (fun c => if c = '\r' then '\n' else c))))).asString

/-- `max((len(row) for row in rows), default=0)`. -/
def max_cols (rows : List (List (Option String))) : ℕ :=
  (rows.map List.length).foldr max 0

/-- One cleaned, padded row. -/
def paddedRow (cells : List String) (n : ℕ) : List String :=
  cells ++ List.replicate (n - cells.length) ""

/-- The `cleaned_rows` list of `_render_table`. -/
def cleaned_rows (rows : List (List (Option String))) : List (List String) :=
  rows.map (fun row => paddedRow (row.map clean_cell) (max_cols rows))

/-- Pipe-delimited rendering with a separator line, as the claim words it. -/
def pipe_render (cleaned : List (List String)) : String :=
  match cleaned with
  | [] => ""
  | header :: body =>
    pyStripStr (String.intercalate "\n"
      (("| " ++ String.intercalate " | " header ++ " |") ::
       ("| " ++ String.intercalate " | " (List.replicate header.length "---") ++ " |") ::
       body.map (fun row => "| " ++ String.intercalate " | " row ++ " |")))

/-- Tab-delimited rendering, as the claim words it. -/
def tab_render (cleaned : List (List String)) : String :=
  pyStripStr (String.intercalate "\n"
    (cleaned.map (fun row => String.intercalate "\t" row)))

/-- Model of `_render_table(rows)`. -/
def render_table (rows : List (List (Option String))) : String :=
  if max_cols rows = 0 then ""
  else
    match cleaned_rows rows with
    | [] => ""
    | header :: body =>
      if looks_like_header header
          (match body with | [] => none | b :: _ => some b) then
        pyStripStr (String.intercalate "\n"
          (("| " ++ String.intercalate " | " header ++ " |") ::
           ("| " ++ String.intercalate " | " (List.replicate header.length "---") ++ " |") ::
           body.map (fun row => "| " ++ String.intercalate " | " row ++ " |")))
      else
        pyStripStr (String.intercalate "\n"
          ((header :: body).map (fun row => String.intercalate "\t" row)))

theorem nonEmptyCells_ne_nil_imp (sr : List String)
    (h : ¬ nonEmptyCells sr = []) : ¬ sr = [] := by
  intro hsr
  subst hsr
  exact h rfl

theorem alpha_pos_letter (row : List String) (h : 1 ≤ alphaCellCount row) :
    ∃ c ∈ nonEmptyCells row, hasLetter c = true := by
  unfold alphaCellCount at h
  have hpos : 0 < ((nonEmptyCells row).filter hasLetter).length := by omega
  rcases List.exists_mem_of_length_pos hpos with ⟨c, hc⟩
  exact ⟨c, (List.mem_filter.mp hc).1, (List.mem_filter.mp hc).2⟩

/-- C8 as amended: the code's header judgement holds iff (a) the first row
has a non-empty cell, and either (b) all its non-empty cells are
non-numeric-looking and contain a letter, or (b') the second row has a
non-empty cell and at least `max(1, ⌊n/2⌋)` of the first row's `n`
non-empty cells contain letters; a judged header is rendered pipe-delimited
with a separator line, otherwise rows are tab-delimited. -/
theorem looks_like_header_spec (first : List String)
    (second : Option (List String)) (rows : List (List (Option String))) :
    (looks_like_header first second = true ↔
      header_claim_amended first second) ∧
    render_table rows =
      (if max_cols rows = 0 then ""
       else
         match cleaned_rows rows with
         | [] => ""
         | header :: body =>
           if looks_like_header header
               (match body with | [] => none | b :: _ => some b) then
             pipe_render (header :: body)
           else tab_render (header :: body)) := by
  constructor
  · unfold looks_like_header header_claim_amended
    by_cases h1 : first = []
    · subst h1
      simp [nonEmptyCells]
    · rw [if_neg h1]
      by_cases h2 : nonEmptyCells first = []
      · simp [h2]
      · rw [if_neg h2]
        by_cases h3 : (nonEmptyCells first).all numericLooking = true
        · rw [if_pos h3]
          simp only [Bool.false_eq_true, false_iff]
          rintro ⟨-, hball | ⟨-, hthr⟩⟩
          · rcases List.exists_mem_of_ne_nil _ h2 with ⟨c, hc⟩
            have := List.all_eq_true.mp h3 c hc
            rw [(hball c hc).1] at this
            exact Bool.false_ne_true this
          · have h1a : 1 ≤ alphaCellCount first :=
              le_trans (le_max_left 1 _) hthr
            rcases alpha_pos_letter first h1a with ⟨c, hc, hlet⟩
            have := List.all_eq_true.mp h3 c hc
            rw [hasLetter_not_numericLooking c hlet] at this
            exact Bool.false_ne_true this
        · rw [if_neg h3]
          by_cases h4 : secondRowTriggers first second = true
          · rw [if_pos h4]
            simp only [true_iff]
            refine ⟨h2, Or.inr ?_⟩
            unfold secondRowTriggers at h4
            cases second with
            | none => exact absurd h4 Bool.false_ne_true
            | some sr =>
              have h4p : ¬ sr = [] ∧ ¬ nonEmptyCells sr = [] ∧
                  max 1 ((nonEmptyCells first).length / 2) ≤
                    alphaCellCount first := by
                simpa using h4
              exact ⟨h4p.2.1, h4p.2.2⟩
          · rw [if_neg h4]
            simp only [decide_eq_true_eq]
            constructor
            · intro halpha
              refine ⟨h2, Or.inl ?_⟩
              have hall : ∀ c ∈ nonEmptyCells first, hasLetter c = true :=
                List.filter_length_eq_length.mp halpha
              intro c hc
              exact ⟨hasLetter_not_numericLooking c (hall c hc), hall c hc⟩
            · rintro ⟨-, hball | ⟨hsec, hthr⟩⟩
              · apply List.filter_length_eq_length.mpr
                intro c hc
                exact (hball c hc).2
              · exfalso
                apply h4
                unfold secondRowTriggers
                cases second with
                | none => exact absurd hsec (by simp [secondHasNonEmpty])
                | some sr =>
                  have hne : ¬ nonEmptyCells sr = [] := by
                    simpa [secondHasNonEmpty] using hsec
                  simp only [decide_eq_true_eq]
                  exact ⟨nonEmptyCells_ne_nil_imp sr hne, hne, hthr⟩
  · rfl

instance (first_row : List String) (second_row : Option (List String)) :
    Decidable (header_claim_strict first_row second_row) := by
  unfold header_claim_strict
  infer_instance

/-- Counterexample to C8 as stated: first row `["Name", "1", "2"]` with a
non-empty second row is judged a header by the code (1 ≥ max(1, 3 // 2)),
but only 1 of its 3 non-empty cells contains a letter — fewer than half. -/
theorem looks_like_header_half_counterexample :
    looks_like_header ["Name", "1", "2"] (some ["x"]) = true ∧
    ¬ header_claim_strict ["Name", "1", "2"] (some ["x"]) := by
  constructor
  · decide
  · decide

/-! ## `pdf_ingest` page and table-section parsing
(`backend/app/pdf_ingest.py`: `PAGE_MARKER_PATTERN`, `TABLE_BLOCK_PATTERN`,
`_parse_pages`, lines 7-8 and 161-179) -/

/-- Split at the first occurrence of `sep`: `some (before, after)` with the
separator consumed, `none` when absent (Python `text.split(sep, 1)`). -/
def splitFirstAt (sep : List Char) : List Char → Option (List Char × List Char)
  | [] => if sep.isPrefixOf [] then some ([], []) else none
  | c :: r =>
    if sep.isPrefixOf (c :: r) then some ([], (c :: r).drop sep.length)
    else
      match splitFirstAt sep r with
      | none => none
      | some (pre, post) => some (c :: pre, post)

/-- `text.split("\n\nTABLES:", 1)` as a pair (body text, tables text). -/
def splitTablesSection (l : List Char) : List Char × List Char :=
  match splitFirstAt ("\n\nTABLES:".data) l with
  | none => (l, [])
  | some (pre, post) => (pre, post)

/-- Numeric value of a digit run (the regex group of the page marker). -/
def digitsToNat (ds : List Char) : ℕ :=
  ds.foldl (fun n c => 10 * n + (c.toNat - '0'.toNat)) 0

/-- Try to match `--- PAGE (\d+) ---` followed by a newline at the head of
`l`; on success return the page number and the rest after the marker. -/
def matchPageMarker (l : List Char) : Option (ℕ × List Char) :=
  if ("--- PAGE ".data).isPrefixOf l then
    if (l.drop 9).takeWhile Char.isDigit = [] then none
    else
      if (" ---\n".data).isPrefixOf ((l.drop 9).dropWhile Char.isDigit) then
        some (digitsToNat ((l.drop 9).takeWhile Char.isDigit),
          ((l.drop 9).dropWhile Char.isDigit).drop 5)
      else none
  else none

/-- Scan for the first page marker: `some (before, pageNo, after)`. -/
def scanToMarker : List Char → Option (List Char × ℕ × List Char)
  | [] => none
  | c :: r =>
    match matchPageMarker (c :: r) with
    | some (p, rest) => some ([], p, rest)
    | none =>
      match scanToMarker r with
      | none => none
      | some (pre, p, rest) => some (c :: pre, p, rest)

theorem matchPageMarker_rest_lt (l : List Char) (p : ℕ) (rest : List Char)
    (h : matchPageMarker l = some (p, rest)) : rest.length < l.length := by
  unfold matchPageMarker at h
  by_cases h1 : ("--- PAGE ".data).isPrefixOf l
  · rw [if_pos h1] at h
    by_cases h2 : (l.drop 9).takeWhile Char.isDigit = []
    · rw [if_pos h2] at h; cases h
    · rw [if_neg h2] at h
      by_cases h3 : (" ---\n".data).isPrefixOf ((l.drop 9).dropWhile Char.isDigit)
      · rw [if_pos h3] at h
        have hrest : rest = ((l.drop 9).dropWhile Char.isDigit).drop 5 := by
          cases h; rfl
        have h9 : 9 ≤ l.length := by
          have := (List.isPrefixOf_iff_prefix.mp h1).length_le
          simpa using this
        have hdw : ((l.drop 9).dropWhile Char.isDigit).length ≤
            (l.drop 9).length :=
          (List.dropWhile_sublist Char.isDigit).length_le
        have hd9 : (l.drop 9).length = l.length - 9 := List.length_drop 9 l
        rw [hrest]
        simp only [List.length_drop]
        omega
      · rw [if_neg h3] at h; cases h
  · rw [if_neg h1] at h; cases h

theorem scanToMarker_rest_lt (l pre rest : List Char) (p : ℕ)
    (h : scanToMarker l = some (pre, p, rest)) : rest.length < l.length := by
  induction l generalizing pre with
  | nil => simp [scanToMarker] at h
  | cons c r ih =>
    unfold scanToMarker at h
    cases hm : matchPageMarker (c :: r) with
    | some pr =>
      rw [hm] at h
      cases h
      exact matchPageMarker_rest_lt (c :: r) pr.1 pr.2 (by rw [hm])
    | none =>
      rw [hm] at h
      cases hs : scanToMarker r with
      | none => rw [hs] at h; cases h
      | some x =>
        rw [hs] at h
        cases h
        have := ih x.1 (by rw [hs])
        simpa using Nat.lt_succ_of_lt this

/-- The per-match loop of `_parse_pages`: `p` is the page number of the
marker just consumed, `rest` the text after it; each page's content runs to
the next marker (or the end) and is kept only when non-empty after
stripping.  A later duplicate page number overrides an earlier one via
`getPage` below (Python dict assignment).  The explicit fuel keeps the
recursion structural (kernel-reducible); by `scanToMarker_rest_lt` the
remaining text shrinks at every step, so any fuel ≥ `rest.length + 1` — as
passed by `parse_pages` — is enough. -/
def parsePagesLoop : ℕ → ℕ → List Char → List (ℕ × List Char)
  | 0, _, _ => []
  | fuel + 1, p, rest =>
    match scanToMarker rest with
    | none => if pyStrip rest = [] then [] else [(p, pyStrip rest)]
    | some (before, p2, rest2) =>
      (if pyStrip before = [] then [] else [(p, pyStrip before)]) ++
        parsePagesLoop fuel p2 rest2

/-- Model of `_parse_pages(section_text)`: without any marker the whole
stripped text is page 1; otherwise text before the first marker is ignored
and each marker opens a page. -/
def parse_pages (section_text : List Char) : List (ℕ × List Char) :=
  match scanToMarker section_text with
  | none =>
    if pyStrip section_text = [] then []
    else [(1, pyStrip section_text)]
  | some (_, p, rest) => parsePagesLoop (rest.length + 1) p rest

/-- `pages.get(n, "")` with Python-dict later-wins semantics on the
association list produced by `parse_pages`. -/
def getPage (ps : List (ℕ × List Char)) (n : ℕ) : List Char :=
  match (ps.filter (fun kv => kv.1 = n)).getLast? with
  | none => []
  | some kv => kv.2

/-- Ascending insertion (used for `sorted(set(...))`). -/
def insertSorted (n : ℕ) : List ℕ → List ℕ
  | [] => [n]
  | m :: r => if n ≤ m then n :: m :: r else m :: insertSorted n r

/-- `sorted(...)` of a list of page numbers. -/
def sortAsc (l : List ℕ) : List ℕ := l.foldr insertSorted []

mutual

/-- Does `[TABLE ` followed by one or more digits and `]` start here
(`TABLE_BLOCK_PATTERN`'s lookahead)? -/
def isTableMarkerAt (l : List Char) : Bool :=
  match l with
  | '[' :: 'T' :: 'A' :: 'B' :: 'L' :: 'E' :: ' ' :: r => tmDigits r
  | _ => false

/-- After `[TABLE `: at least one digit … -/
def tmDigits : List Char → Bool
  | [] => false
  | c :: r => if Char.isDigit c then tmClose r else false

/-- … then more digits until a closing `]`. -/
def tmClose : List Char → Bool
  | [] => false
  | c :: r => if c = ']' then true else if Char.isDigit c then tmClose r else false

end

/-- `TABLE_BLOCK_PATTERN.split(cleaned)` (split at the zero-width lookahead
before each table marker); the leading empty piece that `re.split` yields
for a match at position 0 is dropped here, which the caller's
non-empty-after-strip filter makes immaterial. -/
def splitTableBlocksGo (acc : List Char) : List Char → List (List Char)
  | [] => [acc]
  | c :: r =>
    if isTableMarkerAt (c :: r) ∧ ¬ acc = [] then
      acc :: splitTableBlocksGo [c] r
    else splitTableBlocksGo (acc ++ [c]) r

def splitTableBlocks (l : List Char) : List (List Char) :=
  splitTableBlocksGo [] l

/-! ## `pdf_ingest._chunk_table_content` and `pdf_ingest.simple_chunk`
(`backend/app/pdf_ingest.py`, lines 182-209 and 212-263) -/

/-- The `"TABLES:\n"` seed of the packing accumulator. -/
def tablesHeader : List Char := "TABLES:\n".data

/-- `f"{current}\n\n{block}".strip() if current.strip() else block`. -/
def tcCandidate (current block : List Char) : List Char :=
  if ¬ pyStrip current = [] then pyStrip (current ++ '\n' :: '\n' :: block)
  else block

/-- Flush the accumulator: append `current.strip()` unless it is empty or
the bare `"TABLES:"` header. -/
def tcFlush (chunks : List (List Char)) (current : List Char) :
    List (List Char) :=
  if ¬ pyStrip current = [] ∧ ¬ pyStrip current = "TABLES:".data then
    chunks ++ [pyStrip current]
  else chunks

/-- The `for block in table_blocks` packing loop of `_chunk_table_content`:
an oversized block is flushed around and window-split; otherwise blocks are
greedily packed into `current` while the candidate stays within
`max_chars`, flushing and restarting from a fresh `TABLES:` header when it
would not. -/
def tcLoop (mx ov : ℕ) : List (List Char) → List (List Char) → List Char →
    List (List Char)
  | [], chunks, current => tcFlush chunks current
  | block :: rest, chunks, current =>
    if mx < block.length then
      tcLoop mx ov rest (tcFlush chunks current ++ chunk_text_block block mx ov)
        tablesHeader
    else
      if (tcCandidate current block).length ≤ mx then
        tcLoop mx ov rest chunks (tcCandidate current block)
      else
        tcLoop mx ov rest (tcFlush chunks current)
          (pyStrip ("TABLES:\n\n".data ++ block))

/-- Model of `_chunk_table_content(table_text, max_chars, overlap)`. -/
def chunk_table_content (table_text : List Char) (mx ov : ℕ) :
    List (List Char) :=
  if pyStrip table_text = [] then []
  else
    if ((splitTableBlocks (pyStrip table_text)).map pyStrip).filter
        (fun b => ¬ b = []) = [] then
      chunk_text_block (pyStrip table_text) mx ov
    else
      tcLoop mx ov (((splitTableBlocks (pyStrip table_text)).map pyStrip).filter
        (fun b => ¬ b = [])) [] tablesHeader

/-- One chunk record of `simple_chunk(..., with_metadata=True)`; the
`with_metadata=False` result is the projection to `text`. -/
structure ChunkRec where
  text : List Char
  page : ℕ
  page_chunk_index : ℕ
  global_chunk_index : ℕ
  deriving DecidableEq, Repr

/-- A page's combined chunk list: prose windows, then table chunks, with
the merge heuristic gluing the last prose chunk to the first table chunk
when both fit in `max_chars` with a 2-character separator. -/
def pageCombined (mx ov : ℕ) (body tables : List (ℕ × List Char)) (pno : ℕ) :
    List (List Char) :=
  match (chunk_text_block (getPage body pno) mx ov).getLast?,
      chunk_table_content (getPage tables pno) mx ov with
  | some lastp, t0 :: trest =>
    if lastp.length + 2 + t0.length ≤ mx then
      ((chunk_text_block (getPage body pno) mx ov).dropLast ++
        [lastp ++ '\n' :: '\n' :: t0]) ++ trest
    else
      chunk_text_block (getPage body pno) mx ov ++
        chunk_table_content (getPage tables pno) mx ov
  | _, _ =>
    chunk_text_block (getPage body pno) mx ov ++
      chunk_table_content (getPage tables pno) mx ov

/-- Records of one page, given the running global index. -/
def pageRecords (pno g0 : ℕ) (chunks : List (List Char)) : List ChunkRec :=
  chunks.enum.map (fun ic => ChunkRec.mk ic.2 pno ic.1 (g0 + ic.1))

/-- The `for page_no in page_numbers` loop of `simple_chunk`. -/
def pageFold (mx ov : ℕ) (body tables : List (ℕ × List Char))
    (pageNums : List ℕ) : List ChunkRec × ℕ :=
  pageNums.foldl (fun acc pno =>
    (acc.1 ++ pageRecords pno acc.2 (pageCombined mx ov body tables pno),
     acc.2 + (pageCombined mx ov body tables pno).length)) ([], 0)

/-- `simple_chunk` after validation and clamping, on the stripped text. -/
def simpleChunkCore (text : List Char) (mx ov : ℕ) : List ChunkRec :=
  if text = [] then []
  else
    (pageFold mx ov (parse_pages (splitTablesSection text).1)
      (parse_pages (splitTablesSection text).2)
      (sortAsc
        (((parse_pages (splitTablesSection text).1).map Prod.fst ++
          (parse_pages (splitTablesSection text).2).map Prod.fst).dedup))).1

/-- Model of `simple_chunk(text, max_chars, overlap, with_metadata=True)`.
Parameters are integers as in the source: non-positive `max_chars` and
negative `overlap` raise `ValueError` (`Except.error`); `overlap >=
max_chars` is clamped to `max_chars // 4`. -/
def simple_chunk (text : List Char) (max_chars overlap : ℤ) :
    Except String (List ChunkRec) :=
  if max_chars ≤ 0 then Except.error "max_chars must be > 0"
  else if overlap < 0 then Except.error "overlap must be >= 0"
  else
    Except.ok (simpleChunkCore (pyStrip text) max_chars.toNat
      (if max_chars ≤ overlap then max_chars.toNat / 4 else overlap.toNat))

theorem chunkLoop_mem_le (t : List Char) (mx ov : ℕ) :
    ∀ (fuel start : ℕ) (c : List Char),
      c ∈ chunkLoop t mx ov fuel start → c.length ≤ mx := by
  intro fuel
  induction fuel with
  | zero =>
    intro start c hc
    rw [chunkLoop_zero] at hc
    simp at hc
  | succ fuel ih =>
    intro start c hc
    rw [chunkLoop_succ] at hc
    by_cases h1 : start < t.length
    · rw [if_pos h1] at hc
      by_cases h2 : min t.length (start + mx) = t.length
      · rw [if_pos h2] at hc
        simp at hc
        subst hc
        exact List.length_take_le mx _
      · rw [if_neg h2] at hc
        rcases List.mem_cons.mp hc with rfl | hc
        · exact List.length_take_le mx _
        · exact ih _ c hc
    · rw [if_neg h1] at hc
      simp at hc

theorem chunk_text_block_mem_le (t : List Char) (mx ov : ℕ) (c : List Char)
    (hc : c ∈ chunk_text_block t mx ov) : c.length ≤ mx := by
  unfold chunk_text_block at hc
  by_cases h : pyStrip t = []
  · rw [if_pos h] at hc; simp at hc
  · rw [if_neg h] at hc
    exact chunkLoop_mem_le (pyStrip t) mx ov _ 0 c hc

theorem tcFlush_mem (chunks : List (List Char)) (current c : List Char)
    (hc : c ∈ tcFlush chunks current) : c ∈ chunks ∨ c = pyStrip current := by
  unfold tcFlush at hc
  by_cases h : ¬ pyStrip current = [] ∧ ¬ pyStrip current = "TABLES:".data
  · rw [if_pos h] at hc
    rcases List.mem_append.mp hc with h2 | h2
    · exact Or.inl h2
    · simp at h2; exact Or.inr h2
  · rw [if_neg h] at hc
    exact Or.inl hc

theorem tcLoop_mem_le (mx ov : ℕ) :
    ∀ (blocks chunks : List (List Char)) (current c : List Char),
      (∀ d ∈ chunks, d.length ≤ mx + 9) → current.length ≤ mx + 9 →
      c ∈ tcLoop mx ov blocks chunks current → c.length ≤ mx + 9 := by
  intro blocks
  induction blocks with
  | nil =>
    intro chunks current c hch hcur hc
    rcases tcFlush_mem chunks current c hc with h | rfl
    · exact hch c h
    · exact le_trans (pyStrip_length_le current) hcur
  | cons block rest ih =>
    intro chunks current c hch hcur hc
    unfold tcLoop at hc
    by_cases h1 : mx < block.length
    · rw [if_pos h1] at hc
      refine ih _ tablesHeader c ?_ (by unfold tablesHeader; simp) hc
      intro d hd
      rcases List.mem_append.mp hd with h2 | h2
      · rcases tcFlush_mem chunks current d h2 with h3 | rfl
        · exact hch d h3
        · exact le_trans (pyStrip_length_le current) hcur
      · exact le_trans (chunk_text_block_mem_le block mx ov d h2) (by omega)
    · rw [if_neg h1] at hc
      by_cases h2 : (tcCandidate current block).length ≤ mx
      · rw [if_pos h2] at hc
        exact ih chunks (tcCandidate current block) c hch (by omega) hc
      · rw [if_neg h2] at hc
        refine ih _ (pyStrip ("TABLES:\n\n".data ++ block)) c ?_ ?_ hc
        · intro d hd
          rcases tcFlush_mem chunks current d hd with h3 | rfl
          · exact hch d h3
          · exact le_trans (pyStrip_length_le current) hcur
        · refine le_trans (pyStrip_length_le _) ?_
          rw [List.length_append]
          have : ("TABLES:\n\n".data).length = 9 := by decide
          omega

theorem chunk_table_content_mem_le (t : List Char) (mx ov : ℕ)
    (c : List Char) (hc : c ∈ chunk_table_content t mx ov) :
    c.length ≤ mx + 9 := by
  unfold chunk_table_content at hc
  by_cases h1 : pyStrip t = []
  · rw [if_pos h1] at hc; simp at hc
  · rw [if_neg h1] at hc
    by_cases h2 : ((splitTableBlocks (pyStrip t)).map pyStrip).filter
        (fun b => ¬ b = []) = []
    · rw [if_pos h2] at hc
      exact le_trans (chunk_text_block_mem_le _ mx ov c hc) (by omega)
    · rw [if_neg h2] at hc
      refine tcLoop_mem_le mx ov _ [] tablesHeader c (by simp) ?_ hc
      unfold tablesHeader
      simp

theorem pageCombined_mem_le (mx ov : ℕ) (body tables : List (ℕ × List Char))
    (pno : ℕ) (c : List Char) (hc : c ∈ pageCombined mx ov body tables pno) :
    c.length ≤ mx + 9 := by
  have hplain : c ∈ chunk_text_block (getPage body pno) mx ov ++
        chunk_table_content (getPage tables pno) mx ov → c.length ≤ mx + 9 := by
    intro h
    rcases List.mem_append.mp h with h | h
    · exact le_trans (chunk_text_block_mem_le _ mx ov c h) (by omega)
    · exact chunk_table_content_mem_le _ mx ov c h
  unfold pageCombined at hc
  split at hc
  · rename_i lastp t0 trest hL hT
    split at hc
    · rename_i hfit
      rcases List.mem_append.mp hc with h | h
      · rcases List.mem_append.mp h with h | h
        · have hsub : c ∈ chunk_text_block (getPage body pno) mx ov :=
            (List.dropLast_sublist _).subset h
          exact le_trans (chunk_text_block_mem_le _ mx ov c hsub) (by omega)
        · simp at h
          subst h
          simp only [List.length_append, List.length_cons]
          omega
      · have hmem : c ∈ chunk_table_content (getPage tables pno) mx ov := by
          rw [hT]; exact List.mem_cons_of_mem t0 h
        exact chunk_table_content_mem_le _ mx ov c hmem
    · exact hplain hc
  · exact hplain hc

theorem pageRecords_text_mem (pno g0 : ℕ) (chunks : List (List Char))
    (r : ChunkRec) (hr : r ∈ pageRecords pno g0 chunks) : r.text ∈ chunks := by
  unfold pageRecords at hr
  rcases List.mem_map.mp hr with ⟨ic, hic, rfl⟩
  have : ic.2 ∈ (chunks.enum).map Prod.snd := List.mem_map_of_mem Prod.snd hic
  rw [show (chunks.enum).map Prod.snd = chunks from
    List.enumFrom_map_snd 0 chunks] at this
  exact this

theorem pageFold_text_mem (mx ov : ℕ) (body tables : List (ℕ × List Char)) :
    ∀ (pageNums : List ℕ) (acc : List ChunkRec × ℕ) (r : ChunkRec),
      r ∈ (pageNums.foldl (fun acc pno =>
        (acc.1 ++ pageRecords pno acc.2 (pageCombined mx ov body tables pno),
         acc.2 + (pageCombined mx ov body tables pno).length)) acc).1 →
      r ∈ acc.1 ∨ ∃ pno, r.text ∈ pageCombined mx ov body tables pno := by
  intro pageNums
  induction pageNums with
  | nil => intro acc r hr; exact Or.inl hr
  | cons pno rest ih =>
    intro acc r hr
    rw [List.foldl_cons] at hr
    rcases ih _ r hr with h | h
    · rcases List.mem_append.mp h with h | h
      · exact Or.inl h
      · exact Or.inr ⟨pno, pageRecords_text_mem pno acc.2 _ r h⟩
    · exact Or.inr h

/-- C5 as amended: every chunk produced by `simple_chunk` with
`max_chars = M` has length at most `M + 9`: prose windows and windows of an
oversized atomic table block are at most `M`, packed table chunks carry the
9-character `TABLES:` header (`"TABLES:\n\n"`) in front of content that fits
in `M`, and the merge heuristic respects `M`; so the one way a chunk can
exceed `M` is by that 9-character table header — never by more. -/
theorem simple_chunk_size_bound (text : List Char) (max_chars overlap : ℤ)
    (recs : List ChunkRec)
    (h : simple_chunk text max_chars overlap = Except.ok recs) :
    ∀ r ∈ recs, r.text.length ≤ max_chars.toNat + 9 := by
  intro r hr
  unfold simple_chunk at h
  by_cases h1 : max_chars ≤ 0
  · rw [if_pos h1] at h; cases h
  · rw [if_neg h1] at h
    by_cases h2 : overlap < 0
    · rw [if_pos h2] at h; cases h
    · rw [if_neg h2] at h
      have hrecs : recs = simpleChunkCore (pyStrip text) max_chars.toNat
          (if max_chars ≤ overlap then max_chars.toNat / 4
           else overlap.toNat) := by
        cases h; rfl
      subst hrecs
      unfold simpleChunkCore at hr
      by_cases h3 : pyStrip text = []
      · rw [if_pos h3] at hr; simp at hr
      · rw [if_neg h3] at hr
        unfold pageFold at hr
        rcases pageFold_text_mem _ _ _ _ _ ([], 0) r hr with hmem | ⟨pno, hmem⟩
        · simp at hmem
        · exact pageCombined_mem_le _ _ _ _ pno r.text hmem

/-- One page of prose plus a table section whose single atomic block
`"abcdefgh"` (8 characters) fits within `max_chars = 10`. -/
def tableOverflowInput : List Char :=
  "B\n\nTABLES:\n--- PAGE 1 ---\nabcdefgh".data

/-- Counterexample to C5 as stated: with `max_chars = 10`, `overlap = 0`,
the table block `"abcdefgh"` has only 8 ≤ 10 characters, yet the emitted
chunk is `"TABLES:\n\nabcdefgh"` of length 17 > 10 — the size bound is
broken by a chunk whose atomic table block does NOT itself exceed
`max_chars` (the 9-character table header pushes it over), and the chunk is
not window-split. -/
theorem simple_chunk_size_counterexample :
    simple_chunk tableOverflowInput 10 0 =
      Except.ok [ChunkRec.mk ("B".data) 1 0 0,
        ChunkRec.mk ("TABLES:\n\nabcdefgh".data) 1 1 1] ∧
    ("TABLES:\n\nabcdefgh".data).length = 17 ∧
    ("abcdefgh".data).length ≤ 10 := by
  refine ⟨by rfl, by decide, by decide⟩

/-- Witness for the amended C5 at the same concrete input: the oversized
chunk still satisfies the corrected bound `max_chars + 9`. -/
theorem simple_chunk_size_bound_witness :
    ("TABLES:\n\nabcdefgh".data).length ≤ (10 : ℤ).toNat + 9 :=
  simple_chunk_size_bound tableOverflowInput 10 0
    [ChunkRec.mk ("B".data) 1 0 0,
     ChunkRec.mk ("TABLES:\n\nabcdefgh".data) 1 1 1]
    (by rfl) (ChunkRec.mk ("TABLES:\n\nabcdefgh".data) 1 1 1) (by decide)
